import Mathlib

/-!
Shallow embedding of `src/CompRep.py` (an Excel compare tool built on pandas).

Cell values are modelled by a tagged variant `Value` (text / number / missing),
mirroring the spec's data model for dynamically typed cells: pandas represents
an empty cell as NaN, and `pd.isna` is true exactly on such cells, which the
embedding renders as `Value.missing`.  Python numbers (int or float contents)
are modelled as rationals; `pyStr` models Python's `str()` as used by
`astype(str)` and f-string interpolation (`str(nan) = "nan"`).

A loaded DataFrame is modelled by `Table`: ordered column names, a parallel
list of "is float64 dtype" flags (pandas stores a dtype per column; only
`pd.api.types.is_float_dtype` is consulted by the code), and the rows.
The raw loading layer (`detect_header_row`, `rename_unnamed_columns`,
`read_excel`, `load_excel_clean`) works on `RawTable`, whose column labels are
still arbitrary cell values, exactly as pandas column labels are (when
`header=None` is passed, pandas labels the columns with the integers
`0, 1, 2, ...`).
-/

inductive Value : Type where
  | str (s : String)
  | num (q : Rat)
  | missing
deriving DecidableEq, Repr

/-- Python `str()` on a rational number (model of the decimal rendering;
the exact rendering is irrelevant to every claim, it only needs to be a
fixed deterministic function). -/
def ratStr (q : Rat) : String :=
  if q.den = 1 then toString q.num else toString q.num ++ "/" ++ toString q.den

/-- Python `str(v)` / f-string interpolation of a cell value.
`str` of a NaN cell is the literal string `"nan"` (this is what
`Series.astype(str)` produces for missing entries). -/
def pyStr : Value → String
  | .str s => s
  | .num q => ratStr q
  | .missing => "nan"

/-- `pd.isna` on a cell value. -/
def isMissing : Value → Bool
  | .missing => true
  | _ => false

/-- A row of cells. -/
abbrev Row := List Value

/-- A loaded DataFrame after header/rename cleanup: named columns, a parallel
per-column "float64 dtype" flag, and the data rows. -/
structure Table where
  cols : List String
  floatFlags : List Bool
  rows : List Row
deriving Repr, DecidableEq

/-- `df[c]` evaluated on one row: the value of the first column named `c`,
`missing` when the row has no such labelled cell. -/
def colVal (cols : List String) (row : Row) (c : String) : Value :=
  ((cols.zip row).lookup c).getD .missing

/-- The values of column `c`, one per row (`df[c]`). -/
def colValues (t : Table) (c : String) : List Value :=
  t.rows.map (fun r => colVal t.cols r c)

/-! ## Header Locator (`detect_header_row`, src/CompRep.py lines 78-84) -/

/-- Whitespace for Python's `str.strip()`. -/
def isWS (c : Char) : Bool :=
  c = ' ' || c = '\t' || c = '\n' || c = '\r'

/-- Python `s.strip()`. -/
def strStrip (s : String) : String :=
  ⟨((s.data.dropWhile isWS).reverse.dropWhile isWS).reverse⟩

/-- Python `s.lower()`. -/
def strLower (s : String) : String :=
  ⟨s.data.map Char.toLower⟩

/-- Python `s.startswith(pre)`. -/
def strStartsWith (s pre : String) : Bool :=
  pre.data.isPrefixOf s.data

/-- `isinstance(cell, str) and cell.strip()`: a non-empty trimmed text cell. -/
def isTextCell : Value → Bool
  | .str s => strStrip s ≠ ""
  | _ => false

/-- `detect_header_row(df, min_named)`: index of the first row having at least
`min_named` non-empty trimmed text cells, `none` when no row qualifies. -/
def detect_header_row (rows : List Row) (min_named : Nat) : Option Nat :=
  (List.range rows.length).find?
    (fun i => min_named ≤ (rows.getD i []).countP isTextCell)

/-! ## Column Normalizer (`rename_unnamed_columns`, lines 86-95) -/

/-- The pandas placeholder convention tested by the code:
`isinstance(col, str) and col.strip().lower().startswith("unnamed:")`. -/
def isPlaceholder : Value → Bool
  | .str s => strStartsWith (strLower (strStrip s)) "unnamed:"
  | _ => false

/-- The loop of `rename_unnamed_columns`, with `prev` the tracked last real
name (initially the Python string `"Unnamed"`). -/
def renameGo (prev : Value) : List Value → List Value
  | [] => []
  | c :: cs =>
    if isPlaceholder c then .str (pyStr prev ++ " (Text)") :: renameGo prev cs
    else c :: renameGo c cs

/-- `rename_unnamed_columns(columns)`. -/
def rename_unnamed_columns (columns : List Value) : List Value :=
  renameGo (.str "Unnamed") columns

/-! ## Loading (`load_excel_clean`, lines 97-115)

`pd.read_excel` itself is external library code; the embedding gives its
documented semantics on an in-memory sheet (a list of rows of cells):
with `header=i` row `i` becomes the column labels and the following rows the
data; with `header=None` the columns are labelled `0, 1, 2, ...` and every
row is data; `nrows=n` keeps only the first `n` data rows. -/

/-- A DataFrame whose column labels are still raw cell values (pandas labels
are arbitrary Python values; integer labels arise from `header=None`). -/
structure RawTable where
  cols : List Value
  rows : List Row
deriving Repr, DecidableEq

/-- Number of columns pandas infers for the sheet. -/
def sheetWidth (sheet : List Row) : Nat :=
  sheet.foldr (fun r m => max r.length m) 0

/-- Pad a short physical row with missing cells (pandas fills with NaN). -/
def padRow (w : Nat) (r : Row) : Row :=
  r ++ List.replicate (w - r.length) Value.missing

/-- `l.take n` when a row cap is given, `l` otherwise (`nrows=` semantics). -/
def truncOpt : Option Nat → List Row → List Row
  | none, l => l
  | some n, l => l.take n

/-- `pd.read_excel(..., header=h, nrows=n)` on an in-memory sheet. -/
def read_excel (sheet : List Row) (header : Option Nat) (nrows : Option Nat) :
    RawTable :=
  let w := sheetWidth sheet
  match header with
  | none =>
      { cols := (List.range w).map (fun i => Value.num i)
        rows := truncOpt nrows (sheet.map (padRow w)) }
  | some i =>
      { cols := padRow w (sheet.getD i [])
        rows := truncOpt nrows ((sheet.drop (i + 1)).map (padRow w)) }

/-- `min_named_cols` (line 74). -/
def min_named_cols : Nat := 3

/-- `load_excel_clean` (lines 97-115): preview the first 20 rows with no
header, locate the header row, re-read with that header, rename unnamed
columns.  Note the code passes the locator's result straight into
`pd.read_excel(header=...)`, so a `None` locator result selects pandas's
"no header" mode instead of failing. -/
def load_excel_clean (sheet : List Row) (max_lines : Option Nat) : RawTable :=
  let preview := read_excel sheet none (some 20)
  let header_row := detect_header_row preview.rows min_named_cols
  let df := read_excel sheet header_row max_lines
  { df with cols := rename_unnamed_columns df.cols }

/-! ## Key Discoverer (`find_unique_key`, lines 117-129) -/

/-- `df[c].isnull().all()`. -/
def allMissing (t : Table) (c : String) : Bool :=
  (colValues t c).all isMissing

/-- The per-column float64 dtype flag consulted by
`pd.api.types.is_float_dtype(df[c])`. -/
def isFloatCol (t : Table) (c : String) : Bool :=
  (((t.cols.zip t.floatFlags).lookup c).getD false)

/-- The candidate key columns: not entirely null, not float dtype
(lines 118-121). -/
def candidateCols (t : Table) : List String :=
  t.cols.filter (fun c => !(allMissing t c) && !(isFloatCol t c))

/-- `df[col].is_unique`: all values pairwise distinct, counting NaN as a
value (pandas compares `nunique(dropna=False)` against the length). -/
def columnIsUnique (t : Table) (c : String) : Bool :=
  (colValues t c).Nodup

/-- A row's projection onto `combo`, stringified
(`df[list(combo)].astype(str)` of one row). -/
def projStr (t : Table) (combo : List String) (row : Row) : List String :=
  combo.map (fun c => pyStr (colVal t.cols row c))

/-- `df[list(combo)].astype(str).drop_duplicates().shape[0] == df.shape[0]`. -/
def comboIsKey (t : Table) (combo : List String) : Bool :=
  (t.rows.map (projStr t combo)).dedup.length == t.rows.length

/-- `itertools.combinations(l, r)`: all length-`r` subsequences of `l` in
lexicographic index order. -/
def combos : Nat → List α → List (List α)
  | 0, _ => [[]]
  | _ + 1, [] => []
  | r + 1, x :: xs => (combos r xs).map (x :: ·) ++ combos (r + 1) xs
termination_by r l => (r, l)

/-- The combination-size loop `for r in range(2, max_columns + 1)`, unrolled
over the list of sizes to try. -/
def findCombo (t : Table) (cands : List String) : List Nat → Option (List String)
  | [] => none
  | r :: rs =>
    match (combos r cands).find? (comboIsKey t) with
    | some combo => some combo
    | none => findCombo t cands rs

/-- `find_unique_key(df, max_columns=3)` (lines 117-129). -/
def find_unique_key (t : Table) (max_columns : Nat) : Option (List String) :=
  let cands := candidateCols t
  match cands.find? (columnIsUnique t) with
  | some c => some [c]
  | none => findCombo t cands (List.range' 2 (max_columns - 1))

/-! ## Key selection and validation (lines 154-168) -/

/-- Lines 155-168.  `user_keys` is the parsed `keys=` option; Python's
`if user_keys:` is false both for `None` and for an empty list, so the unset
case is modelled by `[]`.  A non-empty user key list is validated against
both tables with the explicit named-columns-missing messages; otherwise the
key is auto-discovered from the base table alone. -/
def selectKeys (user_keys : List String) (base compare : Table) :
    Except String (List String) :=
  if user_keys.isEmpty then
    match find_unique_key base 3 with
    | some ks => .ok ks
    | none => .error "No unique key columns found in base file."
  else
    let missing_base := user_keys.filter (fun k => !(base.cols.contains k))
    let missing_compare := user_keys.filter (fun k => !(compare.cols.contains k))
    if !missing_base.isEmpty then
      .error ("The following key columns are missing in the base file: "
        ++ String.intercalate ", " missing_base)
    else if !missing_compare.isEmpty then
      .error ("The following key columns are missing in the compare file: "
        ++ String.intercalate ", " missing_compare)
    else
      .ok user_keys

/-! ## Key type normalization (lines 170-173)

`df[col] = df[col].astype(str)` rewrites every cell of each key column to its
Python string form (NaN becomes the string `"nan"`), and reading `df[col]`
raises a `KeyError` when the column does not exist. -/

/-- One row after `astype(str)` of the key columns. -/
def coerceRow (cols ks : List String) (row : Row) : Row :=
  List.zipWith (fun c v => if c ∈ ks then Value.str (pyStr v) else v) cols row

/-- A table after `astype(str)` of the key columns (the coerced columns get
object dtype, no longer float). -/
def coerceKeys (t : Table) (ks : List String) : Table :=
  { cols := t.cols
    floatFlags := List.zipWith (fun c f => if c ∈ ks then false else f)
      t.cols t.floatFlags
    rows := t.rows.map (coerceRow t.cols ks) }

/-- The coercion loop `for col in key_columns: df[col] = df[col].astype(str)`,
raising `KeyError` on the first key column absent from the table. -/
def coerceKeysE (t : Table) (ks : List String) : Except String Table :=
  match ks.find? (fun k => !(t.cols.contains k)) with
  | some k => .error ("KeyError: " ++ k)
  | none => .ok (coerceKeys t ks)

/-! ## Merge (line 176)

`pd.merge(df_base, df_compare, how="outer", on=key_columns,
suffixes=('_base', '_compare'), indicator=True)` is external library code;
the embedding gives its documented semantics: a row of the left frame is
paired with every right-frame row whose key-column projection is equal
(`_merge == 'both'`), a left row with no partner is `left_only`, a right row
with no partner is `right_only`, and the suffixes `_base` / `_compare` are
appended exactly to the non-key column names that occur in both frames. -/

/-- The composite key of a row: its projection onto the key columns. -/
def keyTuple (cols ks : List String) (row : Row) : List Value :=
  ks.map (colVal cols row)

/-- The `_merge == 'both'` rows: every (left row, right row) pair sharing a
key, one merged row per pair. -/
def matchRows (colsA colsB ks : List String) (rowsA rowsB : List Row) :
    List (Row × Row) :=
  rowsA.flatMap (fun ra =>
    (rowsB.filter (fun rb =>
      decide (keyTuple colsB ks rb = keyTuple colsA ks ra))).map (fun rb => (ra, rb)))

/-- The `_merge == 'left_only'` rows: left rows with no key partner. -/
def leftOnlyRowsL (colsA colsB ks : List String) (rowsA rowsB : List Row) :
    List Row :=
  rowsA.filter (fun ra =>
    (rowsB.filter (fun rb =>
      decide (keyTuple colsB ks rb = keyTuple colsA ks ra))).isEmpty)

/-- The `_merge == 'right_only'` rows: right rows with no key partner. -/
def rightOnlyRowsL (colsA colsB ks : List String) (rowsA rowsB : List Row) :
    List Row :=
  rowsB.filter (fun rb =>
    (rowsA.filter (fun ra =>
      decide (keyTuple colsA ks ra = keyTuple colsB ks rb))).isEmpty)

/-- `merged.columns`: the key columns, then the left frame's non-key columns
(suffixed `_base` when the name also occurs in the right frame), then the
right frame's non-key columns (suffixed `_compare` symmetrically). -/
def mergedCols (colsA colsB ks : List String) : List String :=
  ks
    ++ (colsA.filter (fun c => !(ks.contains c))).map
        (fun c => if colsB.contains c then c ++ "_base" else c)
    ++ (colsB.filter (fun c => !(ks.contains c))).map
        (fun c => if colsA.contains c then c ++ "_compare" else c)

/-- One `_merge == 'both'` merged row as a label-to-value association list
(a pandas row indexed by `merged.columns`); `row.get(label)` is `lookup`. -/
def mergedRowBoth (colsA colsB ks : List String) (ra rb : Row) :
    List (String × Value) :=
  ks.map (fun k => (k, colVal colsA ra k))
    ++ (colsA.filter (fun c => !(ks.contains c))).map
        (fun c => ((if colsB.contains c then c ++ "_base" else c), colVal colsA ra c))
    ++ (colsB.filter (fun c => !(ks.contains c))).map
        (fun c => ((if colsA.contains c then c ++ "_compare" else c), colVal colsB rb c))

/-! ## Difference collection (lines 179-202) -/

/-- The inner loop of lines 184-193 for one matched pair: for each base
column, skip key columns and columns whose `_compare`-suffixed name is not a
merged column; read `row.get(col + "_base")` and `row.get(col + "_compare")`
(`.get` of an absent label gives `None`, which `pd.isna` also accepts, so it
is rendered as a missing value); skip when both are missing; record
`(col, val_a, val_b)` when the values differ. -/
def rowDiffs (colsA colsB ks : List String) (ra rb : Row) :
    List (String × Value × Value) :=
  colsA.filterMap (fun col =>
    if col ∈ ks then none
    else if (col ++ "_compare") ∈ mergedCols colsA colsB ks then
      let mrow := mergedRowBoth colsA colsB ks ra rb
      let va := (mrow.lookup (col ++ "_base")).getD .missing
      let vb := (mrow.lookup (col ++ "_compare")).getD .missing
      if isMissing va && isMissing vb then none
      else if va ≠ vb then some (col, va, vb) else none
    else none)

/-- Lines 183-196: one `diff_rows` entry per matched pair with a non-empty
difference list, keyed by the pair's (shared) key tuple. -/
def diffRowsL (colsA colsB ks : List String) (rowsA rowsB : List Row) :
    List (List Value × List (String × Value × Value)) :=
  (matchRows colsA colsB ks rowsA rowsB).filterMap (fun p =>
    let d := rowDiffs colsA colsB ks p.1 p.2
    if d.isEmpty then none else some (keyTuple colsA ks p.1, d))

deriving instance DecidableEq for Except

/-- The structured reconciliation output (`diff_rows`, `only_in_base`,
`only_in_compare` of lines 179-202, with keys kept as tuples and differences
as `(column, value_base, value_compare)` triples; the console / Excel layer
only joins these into strings). -/
structure RecOut where
  diffs : List (List Value × List (String × Value × Value))
  onlyBase : List (List Value)
  onlyCompare : List (List Value)
deriving Repr

/-- The full reconciliation on already-coerced tables. -/
def reconcileCore (A B : Table) (ks : List String) : RecOut :=
  { diffs := diffRowsL A.cols B.cols ks A.rows B.rows
    onlyBase := (leftOnlyRowsL A.cols B.cols ks A.rows B.rows).map
      (keyTuple A.cols ks)
    onlyCompare := (rightOnlyRowsL A.cols B.cols ks A.rows B.rows).map
      (keyTuple B.cols ks) }

/-- Lines 170-202 as one step: coerce the key columns of both tables
(raising on a missing key column), merge and collect the three result
collections. -/
def reconcileE (A B : Table) (ks : List String) : Except String RecOut := do
  let A' ← coerceKeysE A ks
  let B' ← coerceKeysE B ks
  .ok (reconcileCore A' B' ks)

/-- The set of keys appearing in the base table (after key coercion). -/
def keysOf (t : Table) (ks : List String) : List (List Value) :=
  t.rows.map (keyTuple t.cols ks)

/-- The keys reported as changed. -/
def changedKeys (A B : Table) (ks : List String) : List (List Value) :=
  (reconcileCore A B ks).diffs.map Prod.fst

/-- `" | ".join(str(row[k]) for k in key_columns)` (lines 195, 199, 201). -/
def keyRepr (key : List Value) : String :=
  String.intercalate " | " (key.map pyStr)

/-- `f"{col}: {val_a} / {val_b}"` (line 193). -/
def diffEntryStr (d : String × Value × Value) : String :=
  d.1 ++ ": " ++ pyStr d.2.1 ++ " / " ++ pyStr d.2.2

/-- The tracked "last real name" after scanning `l`, starting from `prev`. -/
def lastRealFrom (prev : Value) (l : List Value) : Value :=
  l.foldl (fun p c => if isPlaceholder c then p else c) prev


/-- The indexed characterization of the normalizer's output: real names pass
through, the placeholder at position `i` gets the replacement string built
from the last real name among the first `i` entries. -/
def outSpec (l : List Value) : List Value :=
  (List.range l.length).map (fun i =>
    if isPlaceholder (l.getD i .missing) = true
    then .str (pyStr (lastRealFrom (.str "Unnamed") (l.take i)) ++ " (Text)")
    else l.getD i .missing)


/-! ## Clean column names

The difference loop reads merged cells through the string-composed labels
`col + "_base"` / `col + "_compare"`.  A raw column name that itself ends in
one of the two merge suffixes can collide with a suffixed label; the
characterization lemmas below therefore assume suffix-free ("clean")
names. -/

/-- A column name free of the merge suffixes. -/
def cleanName (c : String) : Prop :=
  ¬ ("_base".data.IsSuffix c.data) ∧ ¬ ("_compare".data.IsSuffix c.data)

instance (c : String) : Decidable (cleanName c) := by
  unfold cleanName
  infer_instance

/-- All names in a list are clean. -/
def cleanCols (l : List String) : Prop :=
  ∀ c ∈ l, cleanName c

instance (l : List String) : Decidable (cleanCols l) :=
  List.decidableBAll _ l

/-! ## Helper lemmas: membership in the merge collections -/

theorem mem_matchRows {colsA colsB ks : List String} {rowsA rowsB : List Row}
    {p : Row × Row} :
    p ∈ matchRows colsA colsB ks rowsA rowsB ↔
      p.1 ∈ rowsA ∧ p.2 ∈ rowsB ∧
        keyTuple colsB ks p.2 = keyTuple colsA ks p.1 := by
  obtain ⟨ra, rb⟩ := p
  simp only [matchRows, List.mem_flatMap, List.mem_map, List.mem_filter,
    decide_eq_true_eq]
  constructor
  · rintro ⟨a, ha, rb', ⟨hb, hk⟩, heq⟩
    obtain ⟨rfl, rfl⟩ := Prod.mk.injEq .. ▸ heq
    exact ⟨ha, hb, hk⟩
  · rintro ⟨ha, hb, hk⟩
    exact ⟨ra, ha, rb, ⟨hb, hk⟩, rfl⟩

theorem mem_leftOnlyRowsL {colsA colsB ks : List String} {rowsA rowsB : List Row}
    {r : Row} :
    r ∈ leftOnlyRowsL colsA colsB ks rowsA rowsB ↔
      r ∈ rowsA ∧ ∀ rb ∈ rowsB, keyTuple colsB ks rb ≠ keyTuple colsA ks r := by
  simp [leftOnlyRowsL, List.mem_filter, List.isEmpty_iff, List.filter_eq_nil_iff]

theorem mem_rightOnlyRowsL {colsA colsB ks : List String} {rowsA rowsB : List Row}
    {r : Row} :
    r ∈ rightOnlyRowsL colsA colsB ks rowsA rowsB ↔
      r ∈ rowsB ∧ ∀ ra ∈ rowsA, keyTuple colsA ks ra ≠ keyTuple colsB ks r := by
  simp [rightOnlyRowsL, List.mem_filter, List.isEmpty_iff, List.filter_eq_nil_iff]

theorem mem_diffRowsL {colsA colsB ks : List String} {rowsA rowsB : List Row}
    {t : List Value} {ds : List (String × Value × Value)} :
    (t, ds) ∈ diffRowsL colsA colsB ks rowsA rowsB ↔
      ∃ ra rb, (ra, rb) ∈ matchRows colsA colsB ks rowsA rowsB ∧
        rowDiffs colsA colsB ks ra rb = ds ∧ ds ≠ [] ∧
        t = keyTuple colsA ks ra := by
  simp only [diffRowsL, List.mem_filterMap]
  constructor
  · rintro ⟨⟨ra, rb⟩, hmem, hval⟩
    by_cases hd : (rowDiffs colsA colsB ks ra rb).isEmpty
    · simp [hd] at hval
    · simp only [hd, if_neg, Bool.false_eq_true, not_false_eq_true, if_false,
        Option.some.injEq, Prod.mk.injEq] at hval
      refine ⟨ra, rb, hmem, hval.2, ?_, hval.1.symm⟩
      rw [← hval.2]
      simpa [List.isEmpty_iff] using hd
  · rintro ⟨ra, rb, hmem, hds, hne, rfl⟩
    refine ⟨(ra, rb), hmem, ?_⟩
    have hd : (rowDiffs colsA colsB ks ra rb).isEmpty = false := by
      rw [hds]; simpa [List.isEmpty_iff] using hne
    simp only [hd, Bool.false_eq_true, if_false, Option.some.injEq,
      Prod.mk.injEq]
    exact ⟨trivial, hds⟩

theorem mem_keysOf {t : Table} {ks : List String} {k : List Value} :
    k ∈ keysOf t ks ↔ ∃ r ∈ t.rows, keyTuple t.cols ks r = k := by
  simp [keysOf, List.mem_map]

theorem mem_changedKeys {A B : Table} {ks : List String} {t : List Value} :
    t ∈ changedKeys A B ks ↔
      ∃ ra rb, (ra, rb) ∈ matchRows A.cols B.cols ks A.rows B.rows ∧
        rowDiffs A.cols B.cols ks ra rb ≠ [] ∧ t = keyTuple A.cols ks ra := by
  simp only [changedKeys, reconcileCore, List.mem_map]
  constructor
  · rintro ⟨⟨t', ds⟩, hmem, rfl⟩
    obtain ⟨ra, rb, hm, hds, hne, rfl⟩ := mem_diffRowsL.mp hmem
    exact ⟨ra, rb, hm, by rw [hds]; exact hne, rfl⟩
  · rintro ⟨ra, rb, hm, hne, rfl⟩
    exact ⟨(keyTuple A.cols ks ra, rowDiffs A.cols B.cols ks ra rb),
      mem_diffRowsL.mpr ⟨ra, rb, hm, rfl, hne, rfl⟩, rfl⟩

theorem mem_onlyBase_iff {A B : Table} {ks : List String} {t : List Value} :
    t ∈ (reconcileCore A B ks).onlyBase ↔
      t ∈ keysOf A ks ∧ t ∉ keysOf B ks := by
  simp only [reconcileCore, List.mem_map]
  constructor
  · rintro ⟨r, hr, rfl⟩
    obtain ⟨hrA, hno⟩ := mem_leftOnlyRowsL.mp hr
    refine ⟨mem_keysOf.mpr ⟨r, hrA, rfl⟩, ?_⟩
    intro hB
    obtain ⟨rb, hrb, hkb⟩ := mem_keysOf.mp hB
    exact hno rb hrb hkb
  · rintro ⟨hA, hB⟩
    obtain ⟨r, hrA, rfl⟩ := mem_keysOf.mp hA
    refine ⟨r, mem_leftOnlyRowsL.mpr ⟨hrA, ?_⟩, rfl⟩
    intro rb hrb hk
    exact hB (mem_keysOf.mpr ⟨rb, hrb, hk⟩)

theorem mem_onlyCompare_iff {A B : Table} {ks : List String} {t : List Value} :
    t ∈ (reconcileCore A B ks).onlyCompare ↔
      t ∈ keysOf B ks ∧ t ∉ keysOf A ks := by
  simp only [reconcileCore, List.mem_map]
  constructor
  · rintro ⟨r, hr, rfl⟩
    obtain ⟨hrB, hno⟩ := mem_rightOnlyRowsL.mp hr
    refine ⟨mem_keysOf.mpr ⟨r, hrB, rfl⟩, ?_⟩
    intro hA
    obtain ⟨ra, hra, hka⟩ := mem_keysOf.mp hA
    exact hno ra hra hka
  · rintro ⟨hB, hA⟩
    obtain ⟨r, hrB, rfl⟩ := mem_keysOf.mp hB
    refine ⟨r, mem_rightOnlyRowsL.mpr ⟨hrB, ?_⟩, rfl⟩
    intro ra hra hk
    exact hA (mem_keysOf.mpr ⟨ra, hra, hk⟩)

theorem changedKeys_sub {A B : Table} {ks : List String} {t : List Value}
    (h : t ∈ changedKeys A B ks) : t ∈ keysOf A ks ∧ t ∈ keysOf B ks := by
  obtain ⟨ra, rb, hm, _, rfl⟩ := mem_changedKeys.mp h
  obtain ⟨hra, hrb, hk⟩ := mem_matchRows.mp hm
  exact ⟨mem_keysOf.mpr ⟨ra, hra, rfl⟩, mem_keysOf.mpr ⟨rb, hrb, hk⟩⟩

/-- C1: the reconciliation output partitions keys.  Writing `A'`, `B'` for
the key-coerced tables (lines 170-173), every key of `A'` lands in exactly
one of the changed keys, the left-only keys, or the dropped-identical class
(present in both tables, no diff row recorded); symmetrically for `B'`;
no key is both left-only and right-only; and every recorded diff row
carries at least one per-column difference entry. -/
theorem C1_partition (A B : Table) (ks : List String) :
    (∀ t ∈ keysOf (coerceKeys A ks) ks,
      (t ∈ changedKeys (coerceKeys A ks) (coerceKeys B ks) ks
        ∨ t ∈ (reconcileCore (coerceKeys A ks) (coerceKeys B ks) ks).onlyBase
        ∨ (t ∈ keysOf (coerceKeys B ks) ks
            ∧ t ∉ changedKeys (coerceKeys A ks) (coerceKeys B ks) ks))
      ∧ ¬(t ∈ changedKeys (coerceKeys A ks) (coerceKeys B ks) ks
          ∧ t ∈ (reconcileCore (coerceKeys A ks) (coerceKeys B ks) ks).onlyBase)
      ∧ ¬(t ∈ changedKeys (coerceKeys A ks) (coerceKeys B ks) ks
          ∧ (t ∈ keysOf (coerceKeys B ks) ks
              ∧ t ∉ changedKeys (coerceKeys A ks) (coerceKeys B ks) ks))
      ∧ ¬(t ∈ (reconcileCore (coerceKeys A ks) (coerceKeys B ks) ks).onlyBase
          ∧ (t ∈ keysOf (coerceKeys B ks) ks
              ∧ t ∉ changedKeys (coerceKeys A ks) (coerceKeys B ks) ks)))
    ∧ (∀ t ∈ keysOf (coerceKeys B ks) ks,
      (t ∈ changedKeys (coerceKeys A ks) (coerceKeys B ks) ks
        ∨ t ∈ (reconcileCore (coerceKeys A ks) (coerceKeys B ks) ks).onlyCompare
        ∨ (t ∈ keysOf (coerceKeys A ks) ks
            ∧ t ∉ changedKeys (coerceKeys A ks) (coerceKeys B ks) ks))
      ∧ ¬(t ∈ changedKeys (coerceKeys A ks) (coerceKeys B ks) ks
          ∧ t ∈ (reconcileCore (coerceKeys A ks) (coerceKeys B ks) ks).onlyCompare)
      ∧ ¬(t ∈ changedKeys (coerceKeys A ks) (coerceKeys B ks) ks
          ∧ (t ∈ keysOf (coerceKeys A ks) ks
              ∧ t ∉ changedKeys (coerceKeys A ks) (coerceKeys B ks) ks))
      ∧ ¬(t ∈ (reconcileCore (coerceKeys A ks) (coerceKeys B ks) ks).onlyCompare
          ∧ (t ∈ keysOf (coerceKeys A ks) ks
              ∧ t ∉ changedKeys (coerceKeys A ks) (coerceKeys B ks) ks)))
    ∧ (∀ t, ¬(t ∈ (reconcileCore (coerceKeys A ks) (coerceKeys B ks) ks).onlyBase
        ∧ t ∈ (reconcileCore (coerceKeys A ks) (coerceKeys B ks) ks).onlyCompare))
    ∧ (∀ t ds, (t, ds) ∈ (reconcileCore (coerceKeys A ks) (coerceKeys B ks) ks).diffs
        → ds ≠ []) := by
  refine ⟨?_, ?_, ?_, ?_⟩
  · intro t htA
    by_cases hB : t ∈ keysOf (coerceKeys B ks) ks
    · by_cases hc : t ∈ changedKeys (coerceKeys A ks) (coerceKeys B ks) ks
      · exact ⟨Or.inl hc,
          fun h => (mem_onlyBase_iff.mp h.2).2 hB,
          fun h => h.2.2 hc,
          fun h => (mem_onlyBase_iff.mp h.1).2 hB⟩
      · exact ⟨Or.inr (Or.inr ⟨hB, hc⟩),
          fun h => hc h.1,
          fun h => hc h.1,
          fun h => (mem_onlyBase_iff.mp h.1).2 hB⟩
    · have hnc : t ∉ changedKeys (coerceKeys A ks) (coerceKeys B ks) ks :=
        fun hc => hB (changedKeys_sub hc).2
      exact ⟨Or.inr (Or.inl (mem_onlyBase_iff.mpr ⟨htA, hB⟩)),
        fun h => hnc h.1,
        fun h => hnc h.1,
        fun h => hB h.2.1⟩
  · intro t htB
    by_cases hA : t ∈ keysOf (coerceKeys A ks) ks
    · by_cases hc : t ∈ changedKeys (coerceKeys A ks) (coerceKeys B ks) ks
      · exact ⟨Or.inl hc,
          fun h => (mem_onlyCompare_iff.mp h.2).2 hA,
          fun h => h.2.2 hc,
          fun h => (mem_onlyCompare_iff.mp h.1).2 hA⟩
      · exact ⟨Or.inr (Or.inr ⟨hA, hc⟩),
          fun h => hc h.1,
          fun h => hc h.1,
          fun h => (mem_onlyCompare_iff.mp h.1).2 hA⟩
    · have hnc : t ∉ changedKeys (coerceKeys A ks) (coerceKeys B ks) ks :=
        fun hc => hA (changedKeys_sub hc).1
      exact ⟨Or.inr (Or.inl (mem_onlyCompare_iff.mpr ⟨htB, hA⟩)),
        fun h => hnc h.1,
        fun h => hnc h.1,
        fun h => hA h.2.1⟩
  · intro t h
    exact (mem_onlyCompare_iff.mp h.2).2 (mem_onlyBase_iff.mp h.1).1
  · intro t ds h
    obtain ⟨_, _, _, _, hne, _⟩ := mem_diffRowsL.mp h
    exact hne

/-! ## Helper lemmas: the key discoverer -/

theorem combos_mem {α : Type} :
    ∀ (r : Nat) (l : List α) (c : List α),
      c ∈ combos r l → c.length = r ∧ c ⊆ l := by
  intro r l
  induction l generalizing r with
  | nil =>
    intro c hc
    cases r with
    | zero =>
      rw [combos] at hc
      simp only [List.mem_singleton] at hc
      subst hc
      simp
    | succ r =>
      rw [combos] at hc
      simp at hc
  | cons x xs ih =>
    intro c hc
    cases r with
    | zero =>
      rw [combos] at hc
      simp only [List.mem_singleton] at hc
      subst hc
      simp
    | succ r =>
      rw [combos] at hc
      rcases List.mem_append.mp hc with h | h
      · obtain ⟨c', hc', rfl⟩ := List.mem_map.mp h
        obtain ⟨hlen, hsub⟩ := ih r c' hc'
        refine ⟨by simp [hlen], ?_⟩
        intro a ha
        rcases List.mem_cons.mp ha with rfl | ha
        · exact List.mem_cons_self a xs
        · exact List.mem_cons_of_mem x (hsub ha)
      · obtain ⟨hlen, hsub⟩ := ih (r + 1) c h
        exact ⟨hlen, fun a ha => List.mem_cons_of_mem x (hsub ha)⟩

theorem findCombo_some {t : Table} {cands : List String} {rs : List Nat}
    {ks : List String} (h : findCombo t cands rs = some ks) :
    comboIsKey t ks = true ∧ ∃ r ∈ rs, ks ∈ combos r cands := by
  induction rs with
  | nil => simp [findCombo] at h
  | cons r rest ih =>
    rw [findCombo] at h
    cases hf : (combos r cands).find? (comboIsKey t) with
    | some combo =>
      rw [hf] at h
      obtain rfl : combo = ks := by simpa using h
      exact ⟨List.find?_some hf, r, List.mem_cons_self r rest,
        List.mem_of_find?_eq_some hf⟩
    | none =>
      rw [hf] at h
      obtain ⟨hkey, r', hr', hmem⟩ := ih h
      exact ⟨hkey, r', List.mem_cons_of_mem r hr', hmem⟩

theorem comboIsKey_nodup {t : Table} {combo : List String}
    (h : comboIsKey t combo = true) :
    (t.rows.map (projStr t combo)).Nodup := by
  rw [comboIsKey, beq_iff_eq] at h
  have hlen : (t.rows.map (projStr t combo)).dedup.length
      = (t.rows.map (projStr t combo)).length := by
    rw [h, List.length_map]
  have heq := (List.dedup_sublist (t.rows.map (projStr t combo))).eq_of_length hlen
  exact List.dedup_eq_self.mp heq

theorem candidateCols_sub {t : Table} : candidateCols t ⊆ t.cols :=
  fun _ ha => (List.mem_filter.mp ha).1

theorem find_unique_key_sub {t : Table} {m : Nat} {ks : List String}
    (h : find_unique_key t m = some ks) : ks ⊆ t.cols ∧ ks ≠ [] := by
  rw [find_unique_key] at h
  cases hf : (candidateCols t).find? (columnIsUnique t) with
  | some c =>
    rw [hf] at h
    obtain rfl : [c] = ks := by simpa using h
    have hc := List.mem_of_find?_eq_some hf
    refine ⟨?_, by simp⟩
    intro a ha
    rcases List.mem_singleton.mp ha with rfl
    exact candidateCols_sub hc
  | none =>
    rw [hf] at h
    obtain ⟨_, r, hr, hmem⟩ := findCombo_some h
    obtain ⟨hlen, hsub⟩ := combos_mem r (candidateCols t) ks hmem
    have hr2 : 2 ≤ r := (List.mem_range'_1.mp hr).1
    refine ⟨fun a ha => candidateCols_sub (hsub ha), ?_⟩
    intro hnil
    rw [hnil] at hlen
    simp at hlen
    omega

/-- C2: whenever `find_unique_key` returns a column list, the list is
non-empty and is a true key of the table: in the singleton case the column's
native values are pairwise distinct (`Series.is_unique`), and in the
combination case the stringified projections of the rows onto the returned
columns are pairwise distinct. -/
theorem C2_find_key_is_key (t : Table) (m : Nat) (ks : List String)
    (h : find_unique_key t m = some ks) :
    ks ≠ [] ∧
      ((∃ c, ks = [c] ∧ (colValues t c).Nodup)
        ∨ (t.rows.map (projStr t ks)).Nodup) := by
  rw [find_unique_key] at h
  cases hf : (candidateCols t).find? (columnIsUnique t) with
  | some c =>
    rw [hf] at h
    obtain rfl : [c] = ks := by simpa using h
    have hu := List.find?_some hf
    rw [columnIsUnique, decide_eq_true_eq] at hu
    exact ⟨by simp, Or.inl ⟨c, rfl, hu⟩⟩
  | none =>
    rw [hf] at h
    obtain ⟨hkey, r, hr, hmem⟩ := findCombo_some h
    have hr2 : 2 ≤ r := (List.mem_range'_1.mp hr).1
    have hlen := (combos_mem r (candidateCols t) ks hmem).1
    refine ⟨?_, Or.inr (comboIsKey_nodup hkey)⟩
    intro hnil
    rw [hnil] at hlen
    simp at hlen
    omega

/-- Witness for C2 at a concrete table: a two-row table with a distinct
text column is keyed by that column. -/
theorem C2_witness :
    find_unique_key ⟨["id"], [false], [[.str "a"], [.str "b"]]⟩ 3 = some ["id"]
    ∧ (["id"] ≠ ([] : List String) ∧
      ((∃ c, ["id"] = [c]
          ∧ (colValues ⟨["id"], [false], [[.str "a"], [.str "b"]]⟩ c).Nodup)
        ∨ ((⟨["id"], [false], [[.str "a"], [.str "b"]]⟩ : Table).rows.map
            (projStr ⟨["id"], [false], [[.str "a"], [.str "b"]]⟩ ["id"])).Nodup)) :=
  ⟨by decide, C2_find_key_is_key _ 3 ["id"] (by decide)⟩

/-! ## C3: a table is produced even when no header row is located -/

/-- C3 (code bug): on an all-numeric sheet the header locator reports
not-found, yet `load_excel_clean` still produces a table — the `None` is
passed to `pd.read_excel(header=...)`, which reads the sheet with positional
integer column labels instead of failing. -/
theorem C3_header_not_found_still_loads :
    detect_header_row
      (read_excel [[.num 1, .num 2, .num 3], [.num 4, .num 5, .num 6]]
        none (some 20)).rows min_named_cols = none
    ∧ load_excel_clean [[.num 1, .num 2, .num 3], [.num 4, .num 5, .num 6]] none
      = ⟨[.num 0, .num 1, .num 2],
         [[.num 1, .num 2, .num 3], [.num 4, .num 5, .num 6]]⟩ := by
  exact ⟨by decide, by decide⟩

/-! ## Helper lemmas: the column normalizer -/

theorem lastRealFrom_eq_getLastD (prev : Value) (xs : List Value) :
    lastRealFrom prev xs
      = (xs.filter (fun c => !(isPlaceholder c))).getLastD prev := by
  induction xs generalizing prev with
  | nil => rfl
  | cons c t ih =>
    cases hc : isPlaceholder c with
    | true =>
      rw [lastRealFrom, List.foldl_cons]
      simp only [hc, if_true]
      rw [List.filter_cons, hc]
      exact ih prev
    | false =>
      simp only [lastRealFrom, List.foldl_cons, hc, Bool.false_eq_true,
        if_false, List.filter_cons, Bool.not_false, if_true,
        List.getLastD_cons]
      exact ih c

theorem renameGo_length (prev : Value) (l : List Value) :
    (renameGo prev l).length = l.length := by
  induction l generalizing prev with
  | nil => rfl
  | cons c t ih =>
    rw [renameGo]
    cases hc : isPlaceholder c <;> simp [hc, ih]

theorem renameGo_getD (prev : Value) (l : List Value) (i : Nat)
    (h : i < l.length) :
    (renameGo prev l).getD i .missing
      = if isPlaceholder (l.getD i .missing) = true
        then .str (pyStr (lastRealFrom prev (l.take i)) ++ " (Text)")
        else l.getD i .missing := by
  induction l generalizing prev i with
  | nil => simp at h
  | cons c t ih =>
    cases hc : isPlaceholder c with
    | true =>
      rw [renameGo]
      simp only [hc, if_true]
      cases i with
      | zero => simp [hc, lastRealFrom]
      | succ i =>
        simp only [List.getD_cons_succ, List.take_succ_cons]
        have ht : i < t.length := by simpa using h
        rw [ih prev i ht]
        have harf : lastRealFrom prev (c :: t.take i) = lastRealFrom prev (t.take i) := by
          simp [lastRealFrom, List.foldl_cons, hc]
        rw [harf]
    | false =>
      rw [renameGo]
      simp only [hc, Bool.false_eq_true, if_false]
      cases i with
      | zero => simp [hc]
      | succ i =>
        simp only [List.getD_cons_succ, List.take_succ_cons]
        have ht : i < t.length := by simpa using h
        rw [ih c i ht]
        have harf : lastRealFrom prev (c :: t.take i) = lastRealFrom c (t.take i) := by
          simp [lastRealFrom, List.foldl_cons, hc]
        rw [harf]

/-- C7: `rename_unnamed_columns` preserves length, passes every
non-placeholder name through unchanged, replaces every placeholder with
`"<lastRealName> (Text)"` where `lastRealName` is the most recent preceding
non-placeholder name, and a placeholder preceded only by placeholders (or by
nothing) becomes `"Unnamed (Text)"`. -/
theorem C7_rename_spec (l : List Value) (i : Nat) (h : i < l.length) :
    (rename_unnamed_columns l).length = l.length
    ∧ (isPlaceholder (l.getD i .missing) = false →
        (rename_unnamed_columns l).getD i .missing = l.getD i .missing)
    ∧ (isPlaceholder (l.getD i .missing) = true →
        (rename_unnamed_columns l).getD i .missing
          = .str (pyStr (((l.take i).filter
              (fun c => !(isPlaceholder c))).getLastD (.str "Unnamed"))
              ++ " (Text)"))
    ∧ ((∀ c ∈ l.take i, isPlaceholder c = true) →
        isPlaceholder (l.getD i .missing) = true →
        (rename_unnamed_columns l).getD i .missing = .str "Unnamed (Text)") := by
  refine ⟨renameGo_length _ l, ?_, ?_, ?_⟩
  · intro hp
    rw [rename_unnamed_columns, renameGo_getD _ l i h, hp]
    simp
  · intro hp
    rw [rename_unnamed_columns, renameGo_getD _ l i h, hp,
      ← lastRealFrom_eq_getLastD]
    simp
  · intro hall hp
    rw [rename_unnamed_columns, renameGo_getD _ l i h, hp]
    simp only [if_true]
    have hfil : (l.take i).filter (fun c => !(isPlaceholder c)) = [] := by
      rw [List.filter_eq_nil_iff]
      intro c hc
      simp [hall c hc]
    rw [lastRealFrom_eq_getLastD, hfil]
    rfl

/-- Witness for C7 at the spec's own example: the placeholder in
`["ID", "Unnamed: 1", "Amount"]` is rewritten to `"ID (Text)"`. -/
theorem C7_witness :
    (rename_unnamed_columns
        [Value.str "ID", .str "Unnamed: 1", .str "Amount"]).getD 1 .missing
      = .str "ID (Text)" := by
  have h := (C7_rename_spec [Value.str "ID", .str "Unnamed: 1", .str "Amount"]
    1 (by decide)).2.2.1 (by decide)
  exact h.trans (by decide)

/-! ## C8: uniqueness of normalized column names -/

theorem rename_eq_outSpec (l : List Value) :
    rename_unnamed_columns l = outSpec l := by
  have hlen : (rename_unnamed_columns l).length = (outSpec l).length := by
    rw [rename_unnamed_columns, renameGo_length, outSpec, List.length_map,
      List.length_range]
  apply List.ext_get hlen
  intro n h1 h2
  have hn : n < l.length := by
    rw [rename_unnamed_columns, renameGo_length] at h1
    exact h1
  have hr : (rename_unnamed_columns l).get ⟨n, h1⟩
      = (rename_unnamed_columns l).getD n .missing := by
    rw [List.getD_eq_getElem?_getD, List.getElem?_eq_getElem h1]
    rfl
  have ho : (outSpec l).get ⟨n, h2⟩
      = if isPlaceholder (l.getD n .missing) = true
        then .str (pyStr (lastRealFrom (.str "Unnamed") (l.take n)) ++ " (Text)")
        else l.getD n .missing := by
    simp [outSpec]
  rw [hr, ho, rename_unnamed_columns, renameGo_getD _ l n hn]

/-- C8 counterexample: two distinct placeholder names with the same (absent)
preceding real name normalize to the same string, so pairwise-distinct raw
names do not guarantee pairwise-distinct normalized names. -/
theorem C8_counterexample :
    ([Value.str "Unnamed: 1", .str "Unnamed: 2"] : List Value).Nodup
    ∧ ¬ (rename_unnamed_columns
          [Value.str "Unnamed: 1", .str "Unnamed: 2"]).Nodup :=
  ⟨by decide, by decide⟩

/-- C8 amended: normalized names are pairwise distinct provided the names
prescribed for the output — real names unchanged, each placeholder replaced
by its generated `"<lastRealName> (Text)"` string — are themselves pairwise
distinct (distinctness of the raw names alone is not enough). -/
theorem C8_nodup_amended (l : List Value) (_h : l.Nodup)
    (hspec : (outSpec l).Nodup) :
    (rename_unnamed_columns l).Nodup := by
  rw [rename_eq_outSpec]
  exact hspec

/-- Witness for C8 at a concrete list with one placeholder between two
distinct real names. -/
theorem C8_witness :
    (rename_unnamed_columns
      [Value.str "A", .str "Unnamed: 1", .str "B"]).Nodup :=
  C8_nodup_amended [Value.str "A", .str "Unnamed: 1", .str "B"]
    (by decide) (by decide)

/-! ## C4: key validation -/

theorem coerceKeysE_ok_of_sub {t : Table} {ks : List String}
    (h : ∀ k ∈ ks, k ∈ t.cols) :
    coerceKeysE t ks = .ok (coerceKeys t ks) := by
  rw [coerceKeysE]
  have hf : ks.find? (fun k => !(t.cols.contains k)) = none := by
    rw [List.find?_eq_none]
    intro k hk
    have hc : t.cols.contains k = true := List.elem_eq_true_of_mem (h k hk)
    rw [hc]
    simp
  rw [hf]

theorem coerceKeysE_error_of_missing {t : Table} {ks : List String}
    (h : ∃ k ∈ ks, k ∉ t.cols) :
    ∃ msg, coerceKeysE t ks = .error msg := by
  rw [coerceKeysE]
  cases hf : ks.find? (fun k => !(t.cols.contains k)) with
  | none =>
    exfalso
    obtain ⟨k, hk, hmem⟩ := h
    have := List.find?_eq_none.mp hf k hk
    simp only [Bool.not_eq_true', Bool.not_eq_true] at this
    exact hmem (List.mem_of_elem_eq_true (by simpa using this))
  | some k => exact ⟨"KeyError: " ++ k, rfl⟩

/-- C4 counterexample: with no user key, the key is auto-discovered from the
base table alone and the selection step succeeds even though the discovered
key column is absent from the compare table — no validation of the key set
in use against both sides takes place. -/
theorem C4_counterexample :
    selectKeys [] ⟨["id", "v"], [false, false], [[.str "1", .str "x"]]⟩
        ⟨["w"], [false], [[.str "y"]]⟩ = .ok ["id"]
    ∧ "id" ∉ (⟨["w"], [false], [[.str "y"]]⟩ : Table).cols :=
  ⟨by decide, by decide⟩

/-- C4 amended: a key set accepted by the selection step always exists in the
base table; it is additionally validated against the compare table (with the
explicit named-columns-missing failure) only when it was user-supplied; and
when a selected key column is nevertheless absent from the compare table,
the run still fails before the merge — at the key-coercion step, with a
`KeyError` naming only the column. -/
theorem C4_key_validation_amended (uk : List String) (base comp : Table)
    (ks : List String) (h : selectKeys uk base comp = .ok ks) :
    (∀ k ∈ ks, k ∈ base.cols)
    ∧ (uk ≠ [] → ∀ k ∈ ks, k ∈ comp.cols)
    ∧ ((∃ k ∈ ks, k ∉ comp.cols) → ∃ msg, reconcileE base comp ks = .error msg) := by
  rw [selectKeys] at h
  cases hu : uk.isEmpty with
  | true =>
    rw [hu, if_pos rfl] at h
    have huk : uk = [] := List.isEmpty_iff.mp hu
    cases hfk : find_unique_key base 3 with
    | none => rw [hfk] at h; exact absurd h (by simp)
    | some ks' =>
      rw [hfk] at h
      obtain rfl : ks' = ks := by simpa using h
      obtain ⟨hsub, _⟩ := find_unique_key_sub hfk
      refine ⟨fun k hk => hsub hk, fun hne => absurd huk hne, ?_⟩
      intro hmiss
      obtain ⟨msg, hmsg⟩ := coerceKeysE_error_of_missing (t := comp) hmiss
      refine ⟨msg, ?_⟩
      rw [reconcileE, coerceKeysE_ok_of_sub (fun k hk => hsub hk), hmsg]
      rfl
  | false =>
    rw [hu] at h
    simp only [Bool.false_eq_true, if_false] at h
    cases hmb : (uk.filter (fun k => !(base.cols.contains k))).isEmpty with
    | false => rw [hmb] at h; exact absurd h (by simp)
    | true =>
      rw [hmb] at h
      simp only [Bool.not_true, Bool.false_eq_true, if_false] at h
      cases hmc : (uk.filter (fun k => !(comp.cols.contains k))).isEmpty with
      | false => rw [hmc] at h; exact absurd h (by simp)
      | true =>
        rw [hmc] at h
        simp only [Bool.not_true, Bool.false_eq_true, if_false,
          Except.ok.injEq] at h
        subst h
        have hbase : ∀ k ∈ uk, k ∈ base.cols := by
          intro k hk
          by_contra hnot
          have hfm : k ∈ uk.filter (fun k => !(base.cols.contains k)) := by
            refine List.mem_filter.mpr ⟨hk, ?_⟩
            cases hcb : base.cols.contains k with
            | true => exact absurd (List.mem_of_elem_eq_true hcb) hnot
            | false => rfl
          rw [List.isEmpty_iff] at hmb
          rw [hmb] at hfm
          exact absurd hfm (List.not_mem_nil k)
        have hcomp : ∀ k ∈ uk, k ∈ comp.cols := by
          intro k hk
          by_contra hnot
          have hfm : k ∈ uk.filter (fun k => !(comp.cols.contains k)) := by
            refine List.mem_filter.mpr ⟨hk, ?_⟩
            cases hcb : comp.cols.contains k with
            | true => exact absurd (List.mem_of_elem_eq_true hcb) hnot
            | false => rfl
          rw [List.isEmpty_iff] at hmc
          rw [hmc] at hfm
          exact absurd hfm (List.not_mem_nil k)
        refine ⟨hbase, fun _ => hcomp, ?_⟩
        intro hmiss
        obtain ⟨k, hk, hnot⟩ := hmiss
        exact absurd (hcomp k hk) hnot

theorem append_ne_of_suffix_lengths {a b : String} :
    a ++ "_base" ≠ b ++ "_compare" := by
  intro h
  have hd : a.data ++ "_base".data = b.data ++ "_compare".data := by
    rw [← String.data_append, ← String.data_append, h]
  have h2 : a.data ++ "_base".data
      = (b.data ++ "_compare".data.take 3) ++ "_compare".data.drop 3 := by
    rw [List.append_assoc, List.take_append_drop]
    exact hd
  have hlen2 : (a.data).length = (b.data ++ "_compare".data.take 3).length := by
    have h3 := congrArg List.length h2
    simp at h3 ⊢
    omega
  have h4 := (List.append_inj h2 hlen2).2
  exact absurd h4 (by decide)

theorem append_suffix_injective {sfx a b : String}
    (h : a ++ sfx = b ++ sfx) : a = b := by
  have hd : a.data ++ sfx.data = b.data ++ sfx.data := by
    rw [← String.data_append, ← String.data_append, h]
  have hlen : (a.data).length = (b.data).length := by
    have h3 := congrArg List.length hd
    rw [List.length_append, List.length_append] at h3
    omega
  exact String.ext (List.append_inj hd hlen).1

theorem cleanName_ne_append_base {c a : String} (h : cleanName c) :
    c ≠ a ++ "_base" := by
  intro he
  exact h.1 (by rw [he, String.data_append]; exact ⟨a.data, rfl⟩)

theorem cleanName_ne_append_compare {c a : String} (h : cleanName c) :
    c ≠ a ++ "_compare" := by
  intro he
  exact h.2 (by rw [he, String.data_append]; exact ⟨a.data, rfl⟩)

/-! ## Lookup lemmas for the merged row -/

theorem lookup_cons (k : String) (p : String × Value)
    (l : List (String × Value)) :
    (p :: l).lookup k = if k = p.1 then some p.2 else l.lookup k := by
  cases hb : k == p.1 <;> rw [List.lookup] <;> rw [hb] <;>
    simp_all [beq_iff_eq, hb]

theorem lookup_eq_none_of_forall {l : List (String × Value)} {k : String}
    (h : ∀ p ∈ l, p.1 ≠ k) : l.lookup k = none := by
  induction l with
  | nil => rfl
  | cons p t ih =>
    rw [lookup_cons]
    rw [if_neg (fun he => h p (List.mem_cons_self p t) he.symm)]
    exact ih (fun q hq => h q (List.mem_cons_of_mem p hq))

theorem lookup_append_of_none {l1 l2 : List (String × Value)} {k : String}
    (h : l1.lookup k = none) :
    (l1 ++ l2).lookup k = l2.lookup k := by
  induction l1 with
  | nil => rfl
  | cons p t ih =>
    rw [lookup_cons] at h
    by_cases hk : k = p.1
    · rw [if_pos hk] at h
      exact absurd h (by simp)
    · rw [if_neg hk] at h
      rw [List.cons_append, lookup_cons, if_neg hk]
      exact ih h

/-- Lookup of `c ++ sfx` in a merge section whose labels are `d ++ sfx` for
overlapping names and the bare (clean) `d` otherwise: the entry for `c`
is found, provided `c` overlaps and is not a key. -/
theorem lookup_suffix_section {o g : List String} {s : String}
    (P1 : ∀ d a : String, cleanName d → d ≠ a ++ s)
    (P2 : ∀ a b : String, a ++ s = b ++ s → a = b)
    (f : String → Value) :
    ∀ (l : List String), (∀ d ∈ l, cleanName d) →
      ∀ c : String, c ∈ l → c ∈ o → c ∉ g →
      ((l.filter (fun d => !(g.contains d))).map
        (fun d => ((if o.contains d then d ++ s else d), f d))).lookup
          (c ++ s) = some (f c) := by
  intro l
  induction l with
  | nil => intro _ c hc; exact absurd hc (List.not_mem_nil c)
  | cons d t ih =>
    intro hclean c hc hcB hck
    rw [List.filter_cons]
    cases hd : g.contains d with
    | true =>
      simp only [hd, Bool.not_true, Bool.false_eq_true, if_false]
      have hdc : c ≠ d := by
        intro he
        exact hck (he ▸ List.mem_of_elem_eq_true hd)
      have hct : c ∈ t := by
        rcases List.mem_cons.mp hc with he | ht
        · exact absurd he hdc
        · exact ht
      exact ih (fun e he => hclean e (List.mem_cons_of_mem d he)) c hct hcB hck
    | false =>
      simp only [hd, Bool.not_false, if_true, List.map_cons, lookup_cons]
      by_cases hdc : c = d
      · subst hdc
        have hcB' : o.contains c = true := List.elem_eq_true_of_mem hcB
        rw [hcB']
        simp
      · have hne : c ++ s ≠ (if o.contains d then d ++ s else d) := by
          cases hB : o.contains d with
          | true =>
            simp only [if_true]
            intro he
            exact hdc (P2 c d he)
          | false =>
            simp only [Bool.false_eq_true, if_false]
            intro he
            exact P1 d c (hclean d (List.mem_cons_self d t)) he.symm
        rw [if_neg hne]
        have hct : c ∈ t := by
          rcases List.mem_cons.mp hc with he | ht
          · exact absurd he hdc
          · exact ht
        exact ih (fun e he => hclean e (List.mem_cons_of_mem d he)) c hct hcB hck

/-- Lookup of `c ++ other` in a section whose labels carry the different
suffix `sfx` (or are bare clean names): never found. -/
theorem lookup_suffix_section_none {o g : List String}
    {s u : String}
    (hne : ∀ a b : String, a ++ s ≠ b ++ u)
    (P1 : ∀ d a : String, cleanName d → d ≠ a ++ u)
    (f : String → Value) (l : List String)
    (hclean : ∀ d ∈ l, cleanName d) (c : String) :
    ((l.filter (fun d => !(g.contains d))).map
      (fun d => ((if o.contains d then d ++ s else d), f d))).lookup
        (c ++ u) = none := by
  apply lookup_eq_none_of_forall
  intro p hp
  obtain ⟨d, hd, rfl⟩ := List.mem_map.mp hp
  have hdl : d ∈ l := (List.mem_filter.mp hd).1
  cases hB : o.contains d with
  | true => simp only [hB, if_true]; exact hne d c
  | false =>
    simp only [hB, Bool.false_eq_true, if_false]
    exact P1 d c (hclean d hdl)

theorem lookup_append_of_some {l1 l2 : List (String × Value)} {k : String}
    {v : Value} (h : l1.lookup k = some v) :
    (l1 ++ l2).lookup k = some v := by
  induction l1 with
  | nil => exact absurd h (by simp [List.lookup])
  | cons p t ih =>
    rw [lookup_cons] at h
    by_cases hk : k = p.1
    · rw [if_pos hk] at h
      rw [List.cons_append, lookup_cons, if_pos hk]
      exact h
    · rw [if_neg hk] at h
      rw [List.cons_append, lookup_cons, if_neg hk]
      exact ih h

theorem mergedRowBoth_lookup_base {colsA colsB ks : List String} {ra rb : Row}
    {c : String} (hA : cleanCols colsA) (hK : cleanCols ks)
    (hcA : c ∈ colsA) (hcB : c ∈ colsB) (hck : c ∉ ks) :
    (mergedRowBoth colsA colsB ks ra rb).lookup (c ++ "_base")
      = some (colVal colsA ra c) := by
  rw [mergedRowBoth]
  have hKnone : (ks.map (fun k => (k, colVal colsA ra k))).lookup
      (c ++ "_base") = none := by
    apply lookup_eq_none_of_forall
    intro p hp
    obtain ⟨k, hk, rfl⟩ := List.mem_map.mp hp
    exact cleanName_ne_append_base (hK k hk)
  have hAsome := lookup_suffix_section (o := colsB) (g := ks)
    (s := "_base")
    (fun d a h => cleanName_ne_append_base h)
    (fun a b h => append_suffix_injective h)
    (colVal colsA ra) colsA hA c hcA hcB hck
  exact lookup_append_of_some ((lookup_append_of_none hKnone).trans hAsome)

theorem mergedRowBoth_lookup_compare {colsA colsB ks : List String}
    {ra rb : Row} {c : String} (hA : cleanCols colsA) (hB : cleanCols colsB)
    (hK : cleanCols ks) (hcA : c ∈ colsA) (hcB : c ∈ colsB) (hck : c ∉ ks) :
    (mergedRowBoth colsA colsB ks ra rb).lookup (c ++ "_compare")
      = some (colVal colsB rb c) := by
  rw [mergedRowBoth]
  have hKnone : (ks.map (fun k => (k, colVal colsA ra k))).lookup
      (c ++ "_compare") = none := by
    apply lookup_eq_none_of_forall
    intro p hp
    obtain ⟨k, hk, rfl⟩ := List.mem_map.mp hp
    exact cleanName_ne_append_compare (hK k hk)
  have hAnone := lookup_suffix_section_none (o := colsB) (g := ks)
    (s := "_base") (u := "_compare")
    (fun a b => append_ne_of_suffix_lengths)
    (fun d a h => cleanName_ne_append_compare h)
    (colVal colsA ra) colsA hA c
  have hBsome := lookup_suffix_section (o := colsA) (g := ks)
    (s := "_compare")
    (fun d a h => cleanName_ne_append_compare h)
    (fun a b h => append_suffix_injective h)
    (colVal colsB rb) colsB hB c hcB hcA hck
  rw [lookup_append_of_none ((lookup_append_of_none hKnone).trans hAnone)]
  exact hBsome

theorem append_compare_mem_mergedCols_iff {colsA colsB ks : List String}
    {c : String} (hA : cleanCols colsA) (hB : cleanCols colsB)
    (hK : cleanCols ks) :
    (c ++ "_compare") ∈ mergedCols colsA colsB ks
      ↔ (c ∈ colsA ∧ c ∈ colsB ∧ c ∉ ks) := by
  rw [mergedCols]
  constructor
  · intro h
    rcases List.mem_append.mp h with h12 | h3
    · rcases List.mem_append.mp h12 with h1 | h2
      · exact absurd rfl (cleanName_ne_append_compare (hK _ h1))
      · exfalso
        obtain ⟨d, hd, heq⟩ := List.mem_map.mp h2
        have hdl : d ∈ colsA := (List.mem_filter.mp hd).1
        by_cases hc : colsB.contains d = true
        · rw [if_pos hc] at heq
          exact append_ne_of_suffix_lengths heq
        · rw [if_neg hc] at heq
          exact cleanName_ne_append_compare (hA d hdl) heq
    · obtain ⟨d, hd, heq⟩ := List.mem_map.mp h3
      have hdl : d ∈ colsB := (List.mem_filter.mp hd).1
      have hdk : d ∉ ks := by
        have hfk := (List.mem_filter.mp hd).2
        intro hmem
        have hc2 : ks.contains d = true := List.elem_eq_true_of_mem hmem
        rw [hc2] at hfk
        exact absurd hfk (by simp)
      by_cases hc : colsA.contains d = true
      · rw [if_pos hc] at heq
        obtain rfl : d = c := append_suffix_injective heq
        exact ⟨List.mem_of_elem_eq_true hc, hdl, hdk⟩
      · rw [if_neg hc] at heq
        exact absurd heq (cleanName_ne_append_compare (hB d hdl))
  · rintro ⟨hcA, hcB, hck⟩
    apply List.mem_append.mpr
    right
    apply List.mem_map.mpr
    refine ⟨c, List.mem_filter.mpr ⟨hcB, ?_⟩, ?_⟩
    · by_cases hc : ks.contains c = true
      · exact absurd (List.mem_of_elem_eq_true hc) hck
      · rw [Bool.not_eq_true] at hc
        rw [hc]
        rfl
    · exact if_pos (List.elem_eq_true_of_mem hcA)

/-- The difference loop, characterized: under clean names, an entry
`(c, x, y)` is recorded exactly for the non-key columns shared by both
tables whose two values are not both missing and differ, with `x`, `y` the
two sides' values for that column. -/
theorem rowDiffs_mem_iff {colsA colsB ks : List String} {a b : Row}
    (hA : cleanCols colsA) (hB : cleanCols colsB) (hK : cleanCols ks)
    {c : String} {x y : Value} :
    (c, x, y) ∈ rowDiffs colsA colsB ks a b ↔
      (c ∈ colsA ∧ c ∉ ks ∧ c ∈ colsB
        ∧ x = colVal colsA a c ∧ y = colVal colsB b c
        ∧ ¬(isMissing x = true ∧ isMissing y = true) ∧ x ≠ y) := by
  rw [rowDiffs, List.mem_filterMap]
  constructor
  · rintro ⟨col, hcol, hsome⟩
    by_cases hk : col ∈ ks
    · rw [if_pos hk] at hsome
      exact absurd hsome (by simp)
    · rw [if_neg hk] at hsome
      by_cases hg : (col ++ "_compare") ∈ mergedCols colsA colsB ks
      · rw [if_pos hg] at hsome
        obtain ⟨hgA, hgB, hgk⟩ := (append_compare_mem_mergedCols_iff hA hB hK).mp hg
        simp only [mergedRowBoth_lookup_base hA hK hgA hgB hgk,
          mergedRowBoth_lookup_compare hA hB hK hgA hgB hgk,
          Option.getD_some] at hsome
        by_cases hm : (isMissing (colVal colsA a col)
            && isMissing (colVal colsB b col)) = true
        · rw [if_pos hm] at hsome
          exact absurd hsome (by simp)
        · rw [if_neg hm] at hsome
          by_cases hne : colVal colsA a col ≠ colVal colsB b col
          · rw [if_pos hne] at hsome
            obtain ⟨rfl, rfl, rfl⟩ :
                col = c ∧ colVal colsA a col = x ∧ colVal colsB b col = y := by
              have := Option.some.inj hsome
              simp only [Prod.mk.injEq] at this
              exact ⟨this.1, this.2.1, this.2.2⟩
            refine ⟨hcol, hk, hgB, rfl, rfl, ?_, hne⟩
            intro hboth
            rw [Bool.and_eq_true] at hm
            exact hm ⟨hboth.1, hboth.2⟩
          · rw [if_neg hne] at hsome
            exact absurd hsome (by simp)
      · rw [if_neg hg] at hsome
        exact absurd hsome (by simp)
  · rintro ⟨hcA, hck, hcB, rfl, rfl, hm, hne⟩
    refine ⟨c, hcA, ?_⟩
    rw [if_neg hck,
      if_pos ((append_compare_mem_mergedCols_iff hA hB hK).mpr ⟨hcA, hcB, hck⟩)]
    simp only [mergedRowBoth_lookup_base hA hK hcA hcB hck,
      mergedRowBoth_lookup_compare hA hB hK hcA hcB hck, Option.getD_some]
    have hmb : (isMissing (colVal colsA a c)
        && isMissing (colVal colsB b c)) = false := by
      rw [Bool.and_eq_false_iff]
      by_cases h1 : isMissing (colVal colsA a c) = true
      · right
        by_cases h2 : isMissing (colVal colsB b c) = true
        · exact absurd ⟨h1, h2⟩ hm
        · exact Bool.not_eq_true _ ▸ h2
      · exact Or.inl (Bool.not_eq_true _ ▸ h1)
    rw [if_neg (by rw [hmb]; exact Bool.false_ne_true), if_pos hne]

/-- C5 counterexample: a base table owning a column literally named
`"v_base"` ahead of the shared column `"v"` shadows the suffixed merged
label `v + "_base"`, so `row.get("v_base")` yields the shadowing column's
value and a difference entry is recorded for `"v"` even though the two
sides' values for `"v"` are equal — refuting "recorded exactly when the two
values are not equal". -/
theorem C5_counterexample :
    colVal (coerceKeys ⟨["k", "v_base", "v"], [false, false, false],
        [[Value.str "1", .str "x", .str "a"]]⟩ ["k"]).cols
      [Value.str "1", .str "x", .str "a"] "v"
      = colVal (coerceKeys ⟨["k", "v"], [false, false],
          [[Value.str "1", .str "a"]]⟩ ["k"]).cols [Value.str "1", .str "a"] "v"
    ∧ ([Value.str "1", .str "x", .str "a"], ([Value.str "1", .str "a"] : Row)) ∈
        matchRows
          (coerceKeys ⟨["k", "v_base", "v"], [false, false, false],
            [[Value.str "1", .str "x", .str "a"]]⟩ ["k"]).cols
          (coerceKeys ⟨["k", "v"], [false, false],
            [[Value.str "1", .str "a"]]⟩ ["k"]).cols ["k"]
          (coerceKeys ⟨["k", "v_base", "v"], [false, false, false],
            [[Value.str "1", .str "x", .str "a"]]⟩ ["k"]).rows
          (coerceKeys ⟨["k", "v"], [false, false],
            [[Value.str "1", .str "a"]]⟩ ["k"]).rows
    ∧ (("v" : String), Value.str "x", Value.str "a") ∈ rowDiffs
        (coerceKeys ⟨["k", "v_base", "v"], [false, false, false],
          [[Value.str "1", .str "x", .str "a"]]⟩ ["k"]).cols
        (coerceKeys ⟨["k", "v"], [false, false],
          [[Value.str "1", .str "a"]]⟩ ["k"]).cols ["k"]
        [Value.str "1", .str "x", .str "a"] [Value.str "1", .str "a"] :=
  ⟨by decide, by decide, by decide⟩

/-- C5 amended: for tables whose column names and key names are free of the
merge suffixes `_base` / `_compare` (without this the property fails, see
the counterexample), for a matched pair of rows and a non-key column present
in both tables, a both-missing value pair records no difference for that
column; otherwise an entry is recorded exactly when the two values differ,
and it carries exactly those two values; and every reported diff row has at
least one entry (zero-difference pairs are dropped). -/
theorem C5_diff_semantics (A B : Table) (ks : List String)
    (hA : cleanCols A.cols) (hB : cleanCols B.cols) (hK : cleanCols ks)
    (ra rb : Row)
    (_hpair : (ra, rb) ∈ matchRows (coerceKeys A ks).cols
      (coerceKeys B ks).cols ks (coerceKeys A ks).rows (coerceKeys B ks).rows)
    (c : String) (hcA : c ∈ A.cols) (hck : c ∉ ks) (hcB : c ∈ B.cols) :
    ((isMissing (colVal (coerceKeys A ks).cols ra c) = true
        ∧ isMissing (colVal (coerceKeys B ks).cols rb c) = true) →
      ∀ x y, (c, x, y) ∉ rowDiffs (coerceKeys A ks).cols
        (coerceKeys B ks).cols ks ra rb)
    ∧ (¬(isMissing (colVal (coerceKeys A ks).cols ra c) = true
          ∧ isMissing (colVal (coerceKeys B ks).cols rb c) = true) →
        ((c, colVal (coerceKeys A ks).cols ra c,
            colVal (coerceKeys B ks).cols rb c)
          ∈ rowDiffs (coerceKeys A ks).cols (coerceKeys B ks).cols ks ra rb
          ↔ colVal (coerceKeys A ks).cols ra c
              ≠ colVal (coerceKeys B ks).cols rb c))
    ∧ (∀ t ds,
        (t, ds) ∈ (reconcileCore (coerceKeys A ks) (coerceKeys B ks) ks).diffs
        → ds ≠ []) := by
  refine ⟨?_, ?_, ?_⟩
  · intro hboth x y hmem
    obtain ⟨_, _, _, hx, hy, hnm, _⟩ :=
      (rowDiffs_mem_iff (a := ra) (b := rb) hA hB hK).mp hmem
    exact hnm ⟨hx ▸ hboth.1, hy ▸ hboth.2⟩
  · intro hnboth
    constructor
    · intro hmem
      exact ((rowDiffs_mem_iff (a := ra) (b := rb) hA hB hK).mp hmem).2.2.2.2.2.2
    · intro hne
      exact (rowDiffs_mem_iff (a := ra) (b := rb) hA hB hK).mpr
        ⟨hcA, hck, hcB, rfl, rfl, hnboth, hne⟩
  · intro t ds hmem
    obtain ⟨_, _, _, _, hne, _⟩ := mem_diffRowsL.mp hmem
    exact hne

/-- Witness for C5 at a concrete matched pair: the shared non-key column
`"v"` with values `"a"` vs `"b"` records a difference exactly because the
values differ. -/
theorem C5_witness :
    ((isMissing (colVal (coerceKeys ⟨["k", "v"], [false, false],
          [[Value.str "1", .str "a"]]⟩ ["k"]).cols [Value.str "1", .str "a"] "v") = true
        ∧ isMissing (colVal (coerceKeys ⟨["k", "v"], [false, false],
          [[Value.str "1", .str "b"]]⟩ ["k"]).cols [Value.str "1", .str "b"] "v") = true) →
      ∀ x y, (("v" : String), x, y) ∉ rowDiffs
        (coerceKeys ⟨["k", "v"], [false, false], [[Value.str "1", .str "a"]]⟩ ["k"]).cols
        (coerceKeys ⟨["k", "v"], [false, false], [[Value.str "1", .str "b"]]⟩ ["k"]).cols
        ["k"] [Value.str "1", .str "a"] [Value.str "1", .str "b"])
    ∧ (¬(isMissing (colVal (coerceKeys ⟨["k", "v"], [false, false],
          [[Value.str "1", .str "a"]]⟩ ["k"]).cols [Value.str "1", .str "a"] "v") = true
        ∧ isMissing (colVal (coerceKeys ⟨["k", "v"], [false, false],
          [[Value.str "1", .str "b"]]⟩ ["k"]).cols [Value.str "1", .str "b"] "v") = true) →
        ((("v" : String), colVal (coerceKeys ⟨["k", "v"], [false, false],
            [[Value.str "1", .str "a"]]⟩ ["k"]).cols [Value.str "1", .str "a"] "v",
          colVal (coerceKeys ⟨["k", "v"], [false, false],
            [[Value.str "1", .str "b"]]⟩ ["k"]).cols [Value.str "1", .str "b"] "v")
          ∈ rowDiffs
            (coerceKeys ⟨["k", "v"], [false, false], [[Value.str "1", .str "a"]]⟩ ["k"]).cols
            (coerceKeys ⟨["k", "v"], [false, false], [[Value.str "1", .str "b"]]⟩ ["k"]).cols
            ["k"] [Value.str "1", .str "a"] [Value.str "1", .str "b"]
          ↔ colVal (coerceKeys ⟨["k", "v"], [false, false],
              [[Value.str "1", .str "a"]]⟩ ["k"]).cols [Value.str "1", .str "a"] "v"
            ≠ colVal (coerceKeys ⟨["k", "v"], [false, false],
              [[Value.str "1", .str "b"]]⟩ ["k"]).cols [Value.str "1", .str "b"] "v"))
    ∧ (∀ t ds, (t, ds) ∈ (reconcileCore
        (coerceKeys ⟨["k", "v"], [false, false], [[Value.str "1", .str "a"]]⟩ ["k"])
        (coerceKeys ⟨["k", "v"], [false, false], [[Value.str "1", .str "b"]]⟩ ["k"])
        ["k"]).diffs → ds ≠ []) :=
  C5_diff_semantics ⟨["k", "v"], [false, false], [[Value.str "1", .str "a"]]⟩
    ⟨["k", "v"], [false, false], [[Value.str "1", .str "b"]]⟩ ["k"]
    (by decide) (by decide) (by decide)
    [Value.str "1", .str "a"] [Value.str "1", .str "b"]
    (by decide) "v" (by decide) (by decide) (by decide)

/-! ## C6: duplicate keys expand to the full cross product -/

theorem countP_matchRows {colsA colsB ks : List String} (t : List Value)
    (rowsA rowsB : List Row) :
    (matchRows colsA colsB ks rowsA rowsB).countP
        (fun p => decide (keyTuple colsA ks p.1 = t))
      = rowsA.countP (fun r => decide (keyTuple colsA ks r = t))
        * rowsB.countP (fun r => decide (keyTuple colsB ks r = t)) := by
  induction rowsA with
  | nil => simp [matchRows]
  | cons ra rest ih =>
    rw [matchRows, List.flatMap_cons, List.countP_append, List.countP_map,
      List.countP_cons]
    rw [matchRows] at ih
    rw [ih]
    by_cases hk : keyTuple colsA ks ra = t
    · have hconst : ((fun p : Row × Row => decide (keyTuple colsA ks p.1 = t))
          ∘ (fun rb => (ra, rb))) = fun _ => true := by
        funext rb
        simp [hk]
      rw [hconst, List.countP_true, List.countP_eq_length_filter]
      have hpred : (fun rb => decide (keyTuple colsB ks rb
          = keyTuple colsA ks ra)) = fun rb => decide (keyTuple colsB ks rb = t) := by
        funext rb
        rw [hk]
      rw [hpred, ← List.countP_eq_length_filter, if_pos (by simp [hk])]
      ring
    · have hconst : ((fun p : Row × Row => decide (keyTuple colsA ks p.1 = t))
          ∘ (fun rb => (ra, rb))) = fun _ => false := by
        funext rb
        simp [hk]
      rw [hconst, List.countP_false, if_neg (by simp [hk])]
      simp [Function.const]

/-- C6: with key columns present on both sides, the reconciliation step
succeeds (no failure) even when keys are duplicated; every (left row, right
row) pair sharing a key appears among the matched pairs; and for each key
value the number of matched pairs is exactly the product of the two sides'
occurrence counts — the full cross-style outer-join expansion, nothing
dropped. -/
theorem C6_duplicate_keys_cross_join (A B : Table) (ks : List String)
    (hA : ∀ k ∈ ks, k ∈ A.cols) (hB : ∀ k ∈ ks, k ∈ B.cols) :
    reconcileE A B ks
        = .ok (reconcileCore (coerceKeys A ks) (coerceKeys B ks) ks)
    ∧ (∀ ra rb, ra ∈ (coerceKeys A ks).rows → rb ∈ (coerceKeys B ks).rows →
        keyTuple (coerceKeys B ks).cols ks rb
          = keyTuple (coerceKeys A ks).cols ks ra →
        (ra, rb) ∈ matchRows (coerceKeys A ks).cols (coerceKeys B ks).cols ks
          (coerceKeys A ks).rows (coerceKeys B ks).rows)
    ∧ (∀ t : List Value,
        (matchRows (coerceKeys A ks).cols (coerceKeys B ks).cols ks
            (coerceKeys A ks).rows (coerceKeys B ks).rows).countP
          (fun p => decide (keyTuple (coerceKeys A ks).cols ks p.1 = t))
        = (coerceKeys A ks).rows.countP
            (fun r => decide (keyTuple (coerceKeys A ks).cols ks r = t))
          * (coerceKeys B ks).rows.countP
            (fun r => decide (keyTuple (coerceKeys B ks).cols ks r = t))) := by
  refine ⟨?_, ?_, ?_⟩
  · rw [reconcileE, coerceKeysE_ok_of_sub hA, coerceKeysE_ok_of_sub hB]
    rfl
  · intro ra rb hra hrb hk
    exact mem_matchRows.mpr ⟨hra, hrb, hk⟩
  · intro t
    exact countP_matchRows t _ _

/-- Witness for C6: a base table whose key value `"1"` occurs twice against
a compare table where it occurs once produces exactly `2 * 1` matched
pairs. -/
theorem C6_witness :
    (matchRows
        (coerceKeys ⟨["k", "v"], [false, false],
          [[Value.str "1", .str "a"], [.str "1", .str "b"]]⟩ ["k"]).cols
        (coerceKeys ⟨["k", "w"], [false, false],
          [[Value.str "1", .str "c"]]⟩ ["k"]).cols ["k"]
        (coerceKeys ⟨["k", "v"], [false, false],
          [[Value.str "1", .str "a"], [.str "1", .str "b"]]⟩ ["k"]).rows
        (coerceKeys ⟨["k", "w"], [false, false],
          [[Value.str "1", .str "c"]]⟩ ["k"]).rows).countP
      (fun p => decide (keyTuple
        (coerceKeys ⟨["k", "v"], [false, false],
          [[Value.str "1", .str "a"], [.str "1", .str "b"]]⟩ ["k"]).cols
        ["k"] p.1 = [Value.str "1"]))
    = (coerceKeys ⟨["k", "v"], [false, false],
        [[Value.str "1", .str "a"], [.str "1", .str "b"]]⟩ ["k"]).rows.countP
        (fun r => decide (keyTuple
          (coerceKeys ⟨["k", "v"], [false, false],
            [[Value.str "1", .str "a"], [.str "1", .str "b"]]⟩ ["k"]).cols
          ["k"] r = [Value.str "1"]))
      * (coerceKeys ⟨["k", "w"], [false, false],
          [[Value.str "1", .str "c"]]⟩ ["k"]).rows.countP
        (fun r => decide (keyTuple
          (coerceKeys ⟨["k", "w"], [false, false],
            [[Value.str "1", .str "c"]]⟩ ["k"]).cols ["k"] r = [Value.str "1"])) :=
  (C6_duplicate_keys_cross_join
    ⟨["k", "v"], [false, false], [[Value.str "1", .str "a"], [.str "1", .str "b"]]⟩
    ⟨["k", "w"], [false, false], [[Value.str "1", .str "c"]]⟩ ["k"]
    (by decide) (by decide)).2.2 [Value.str "1"]

/-! ## C10: missing key values stringify to "nan" and match each other -/

theorem zip_zipWith_lookup (f : String → Value → Value) :
    ∀ (cols : List String) (row : Row) (k : String),
      (cols.zip (List.zipWith f cols row)).lookup k
        = ((cols.zip row).lookup k).map (f k) := by
  intro cols
  induction cols with
  | nil => intro row k; rfl
  | cons c cs ih =>
    intro row k
    cases row with
    | nil => rfl
    | cons v vs =>
      rw [List.zipWith_cons_cons, List.zip_cons_cons, lookup_cons,
        List.zip_cons_cons, lookup_cons]
      by_cases hk : k = c
      · subst hk
        rw [if_pos rfl, if_pos rfl]
        rfl
      · rw [if_neg hk, if_neg hk]
        exact ih vs k

theorem colVal_coerceRow_of_missing {cols ks : List String} {row : Row}
    {k : String} (hk : k ∈ ks)
    (hmiss : (cols.zip row).lookup k = some .missing) :
    colVal cols (coerceRow cols ks row) k = .str "nan" := by
  rw [colVal, coerceRow, zip_zipWith_lookup, hmiss]
  rw [Option.map_some', Option.getD_some]
  rw [if_pos hk]
  rfl

/-- C10: `astype(str)` turns a missing key cell into the literal string
`"nan"`, so a base row and a compare row that are both missing on every key
column share the key tuple `["nan", ...]` and are matched by the outer join
rather than reported as unmatched. -/
theorem C10_missing_keys_match (A B : Table) (ks : List String)
    (ra rb : Row) (hra : ra ∈ A.rows) (hrb : rb ∈ B.rows)
    (hmissA : ∀ k ∈ ks, (A.cols.zip ra).lookup k = some .missing)
    (hmissB : ∀ k ∈ ks, (B.cols.zip rb).lookup k = some .missing) :
    (∀ k ∈ ks, colVal A.cols (coerceRow A.cols ks ra) k = .str "nan")
    ∧ (∀ k ∈ ks, colVal B.cols (coerceRow B.cols ks rb) k = .str "nan")
    ∧ (coerceRow A.cols ks ra, coerceRow B.cols ks rb) ∈
        matchRows (coerceKeys A ks).cols (coerceKeys B ks).cols ks
          (coerceKeys A ks).rows (coerceKeys B ks).rows := by
  have hnanA : ∀ k ∈ ks, colVal A.cols (coerceRow A.cols ks ra) k = .str "nan" :=
    fun k hk => colVal_coerceRow_of_missing hk (hmissA k hk)
  have hnanB : ∀ k ∈ ks, colVal B.cols (coerceRow B.cols ks rb) k = .str "nan" :=
    fun k hk => colVal_coerceRow_of_missing hk (hmissB k hk)
  refine ⟨hnanA, hnanB, ?_⟩
  refine mem_matchRows.mpr ⟨?_, ?_, ?_⟩
  · exact List.mem_map.mpr ⟨ra, hra, rfl⟩
  · exact List.mem_map.mpr ⟨rb, hrb, rfl⟩
  · show keyTuple B.cols ks (coerceRow B.cols ks rb)
      = keyTuple A.cols ks (coerceRow A.cols ks ra)
    rw [keyTuple, keyTuple]
    rw [List.map_congr_left (fun k hk => hnanB k hk),
      List.map_congr_left (fun k hk => hnanA k hk)]

/-- Witness for C10: two single-row tables whose key cell is missing on both
sides are matched under key `["nan"]`. -/
theorem C10_witness :
    (∀ k ∈ ["k"], colVal (["k", "v"] : List String)
        (coerceRow ["k", "v"] ["k"] [Value.missing, .str "a"]) k = .str "nan")
    ∧ (∀ k ∈ ["k"], colVal (["k", "w"] : List String)
        (coerceRow ["k", "w"] ["k"] [Value.missing, .str "b"]) k = .str "nan")
    ∧ (coerceRow ["k", "v"] ["k"] [Value.missing, .str "a"],
        coerceRow ["k", "w"] ["k"] [Value.missing, .str "b"]) ∈
        matchRows
          (coerceKeys ⟨["k", "v"], [false, false],
            [[Value.missing, .str "a"]]⟩ ["k"]).cols
          (coerceKeys ⟨["k", "w"], [false, false],
            [[Value.missing, .str "b"]]⟩ ["k"]).cols ["k"]
          (coerceKeys ⟨["k", "v"], [false, false],
            [[Value.missing, .str "a"]]⟩ ["k"]).rows
          (coerceKeys ⟨["k", "w"], [false, false],
            [[Value.missing, .str "b"]]⟩ ["k"]).rows :=
  C10_missing_keys_match
    ⟨["k", "v"], [false, false], [[Value.missing, .str "a"]]⟩
    ⟨["k", "w"], [false, false], [[Value.missing, .str "b"]]⟩ ["k"]
    [Value.missing, .str "a"] [Value.missing, .str "b"]
    (by decide) (by decide) (by decide) (by decide)

/-! ## C9: symmetry of reconciliation -/

/-- C9 counterexample: a compare table owning a column literally named
`"x_compare"` makes the guard `col + "_compare" in merged.columns` fire for
the base-only column `"x"`, recording a one-sided difference; after swapping
the tables no column produces any difference, so the Changed key set is NOT
preserved under swapping. -/
theorem C9_counterexample :
    [Value.str "1"] ∈ changedKeys
      (coerceKeys ⟨["k", "x"], [false, false], [[Value.str "1", .str "a"]]⟩ ["k"])
      (coerceKeys ⟨["k", "x_compare"], [false, false],
        [[Value.str "1", .str "b"]]⟩ ["k"]) ["k"]
    ∧ [Value.str "1"] ∉ changedKeys
      (coerceKeys ⟨["k", "x_compare"], [false, false],
        [[Value.str "1", .str "b"]]⟩ ["k"])
      (coerceKeys ⟨["k", "x"], [false, false], [[Value.str "1", .str "a"]]⟩ ["k"])
      ["k"] :=
  ⟨by decide, by decide⟩

theorem rowDiffs_swap_mem {colsA colsB ks : List String} {ra rb : Row}
    (hA : cleanCols colsA) (hB : cleanCols colsB) (hK : cleanCols ks)
    {c : String} {x y : Value} :
    (c, x, y) ∈ rowDiffs colsA colsB ks ra rb
      ↔ (c, y, x) ∈ rowDiffs colsB colsA ks rb ra := by
  rw [rowDiffs_mem_iff hA hB hK, rowDiffs_mem_iff hB hA hK]
  constructor
  · rintro ⟨h1, h2, h3, h4, h5, h6, h7⟩
    exact ⟨h3, h2, h1, h5, h4, fun hb => h6 ⟨hb.2, hb.1⟩, fun he => h7 he.symm⟩
  · rintro ⟨h1, h2, h3, h4, h5, h6, h7⟩
    exact ⟨h3, h2, h1, h5, h4, fun hb => h6 ⟨hb.2, hb.1⟩, fun he => h7 he.symm⟩

theorem rowDiffs_swap_ne_nil {colsA colsB ks : List String} {ra rb : Row}
    (hA : cleanCols colsA) (hB : cleanCols colsB) (hK : cleanCols ks)
    (h : rowDiffs colsA colsB ks ra rb ≠ []) :
    rowDiffs colsB colsA ks rb ra ≠ [] := by
  obtain ⟨⟨c, x, y⟩, hmem⟩ := List.exists_mem_of_ne_nil _ h
  exact List.ne_nil_of_mem ((rowDiffs_swap_mem hA hB hK).mp hmem)

/-- C9 amended: for tables whose column names (and key names) are free of
the merge suffixes `_base` / `_compare`, swapping the two tables swaps
`LeftOnly` and `RightOnly` exactly, preserves the set of changed keys, and
reports each per-column difference with its two values exchanged.  (Without
the suffix-free restriction the property fails, see the counterexample.) -/
theorem C9_symmetry_amended (A B : Table) (ks : List String)
    (hA : cleanCols A.cols) (hB : cleanCols B.cols) (hK : cleanCols ks) :
    (reconcileCore (coerceKeys A ks) (coerceKeys B ks) ks).onlyBase
        = (reconcileCore (coerceKeys B ks) (coerceKeys A ks) ks).onlyCompare
    ∧ (reconcileCore (coerceKeys A ks) (coerceKeys B ks) ks).onlyCompare
        = (reconcileCore (coerceKeys B ks) (coerceKeys A ks) ks).onlyBase
    ∧ (∀ t, t ∈ changedKeys (coerceKeys A ks) (coerceKeys B ks) ks
        ↔ t ∈ changedKeys (coerceKeys B ks) (coerceKeys A ks) ks)
    ∧ (∀ ra rb (c : String) (x y : Value),
        (c, x, y) ∈ rowDiffs (coerceKeys A ks).cols (coerceKeys B ks).cols ks ra rb
          ↔ (c, y, x) ∈ rowDiffs (coerceKeys B ks).cols (coerceKeys A ks).cols ks rb ra) := by
  refine ⟨?_, ?_, ?_, ?_⟩
  · rfl
  · rfl
  · intro t
    rw [mem_changedKeys, mem_changedKeys]
    constructor
    · rintro ⟨ra, rb, hm, hne, rfl⟩
      obtain ⟨hra, hrb, hk⟩ := mem_matchRows.mp hm
      exact ⟨rb, ra, mem_matchRows.mpr ⟨hrb, hra, hk.symm⟩,
        rowDiffs_swap_ne_nil hA hB hK hne, hk.symm⟩
    · rintro ⟨rb, ra, hm, hne, rfl⟩
      obtain ⟨hrb, hra, hk⟩ := mem_matchRows.mp hm
      exact ⟨ra, rb, mem_matchRows.mpr ⟨hra, hrb, hk.symm⟩,
        rowDiffs_swap_ne_nil hB hA hK hne, hk.symm⟩
  · intro ra rb c x y
    exact rowDiffs_swap_mem hA hB hK

/-- Witness for C9 (amended) at concrete suffix-free tables. -/
theorem C9_witness :
    (reconcileCore
        (coerceKeys ⟨["k", "v"], [false, false], [[Value.str "1", .str "a"]]⟩ ["k"])
        (coerceKeys ⟨["k", "v"], [false, false], [[Value.str "2", .str "b"]]⟩ ["k"])
        ["k"]).onlyBase
      = (reconcileCore
          (coerceKeys ⟨["k", "v"], [false, false], [[Value.str "2", .str "b"]]⟩ ["k"])
          (coerceKeys ⟨["k", "v"], [false, false], [[Value.str "1", .str "a"]]⟩ ["k"])
          ["k"]).onlyCompare :=
  (C9_symmetry_amended
    ⟨["k", "v"], [false, false], [[Value.str "1", .str "a"]]⟩
    ⟨["k", "v"], [false, false], [[Value.str "2", .str "b"]]⟩ ["k"]
    (by decide) (by decide) (by decide)).1

/-- Witness for C4 (amended) at a concrete user-supplied key present in both
tables. -/
theorem C4_witness :
    (∀ k ∈ ["id"], k ∈ (⟨["id"], [false], [[Value.str "1"]]⟩ : Table).cols)
    ∧ ((["id"] : List String) ≠ [] → ∀ k ∈ ["id"],
        k ∈ (⟨["id", "w"], [false, false],
          [[Value.str "2", .str "y"]]⟩ : Table).cols)
    ∧ ((∃ k ∈ ["id"], k ∉ (⟨["id", "w"], [false, false],
          [[Value.str "2", .str "y"]]⟩ : Table).cols) →
        ∃ msg, reconcileE ⟨["id"], [false], [[Value.str "1"]]⟩
          ⟨["id", "w"], [false, false], [[Value.str "2", .str "y"]]⟩ ["id"]
          = .error msg) :=
  C4_key_validation_amended ["id"] ⟨["id"], [false], [[Value.str "1"]]⟩
    ⟨["id", "w"], [false, false], [[Value.str "2", .str "y"]]⟩ ["id"] (by decide)

/-- Witness for C1 at concrete tables: a key present only in the base table
is never simultaneously left-only and right-only. -/
theorem C1_witness :
    ¬([Value.str "2"] ∈ (reconcileCore
        (coerceKeys ⟨["k", "v"], [false, false], [[Value.str "2", .str "a"]]⟩ ["k"])
        (coerceKeys ⟨["k", "v"], [false, false], [[Value.str "3", .str "b"]]⟩ ["k"])
        ["k"]).onlyBase
      ∧ [Value.str "2"] ∈ (reconcileCore
        (coerceKeys ⟨["k", "v"], [false, false], [[Value.str "2", .str "a"]]⟩ ["k"])
        (coerceKeys ⟨["k", "v"], [false, false], [[Value.str "3", .str "b"]]⟩ ["k"])
        ["k"]).onlyCompare) :=
  (C1_partition ⟨["k", "v"], [false, false], [[Value.str "2", .str "a"]]⟩
    ⟨["k", "v"], [false, false], [[Value.str "3", .str "b"]]⟩ ["k"]).2.2.1
    [Value.str "2"]
